import Mathlib

/-!
Verification of the turnip JSON shape-resolution engine.

The development shallowly embeds the Go sources (`resolver.go`,
`unmarshaler.go`, `parameter.go`): reflection-level Go types become the
inductive `GoType`, the gjson type tags become `GType`, the per-candidate
path maps become association lists, and every function of the core is
translated operation for operation.  External collaborators (the gjson
parser and the final `json.Unmarshal` pass) are modelled at their
interface: a parsed document is a root byte string (whose root tag is
computed exactly as gjson computes it) together with a path-lookup
function returning type tags.
-/

namespace Turnip

/-- The gjson type tags (`gjson.Type`): Null, False, Number, String, True,
JSON, in the order of the Go enumeration.  gjson represents the two boolean
literals as two distinct tags, and tags both objects and arrays `JSON`. -/
inductive GType where
  | TNull
  | TFalse
  | TNumber
  | TString
  | TTrue
  | TJSON
deriving DecidableEq, Repr

/-- Reflection-level model of the Go types that can appear in a candidate
record.  A struct field is `(name, json tag, exported?, type)`; the json
tag component is the raw value of the field's `json:"..."` tag (empty when
absent).  `goMap` keeps only the element type (the key type is never
inspected by the source).  `goChan` and `goFunc` drop their signatures,
which the source never inspects either. -/
inductive GoType where
  | goString
  | goBool
  | goInt
  | goInt8
  | goInt16
  | goInt32
  | goInt64
  | goUint
  | goUint8
  | goUint16
  | goUint32
  | goUint64
  | goUintptr
  | goFloat32
  | goFloat64
  | goComplex64
  | goComplex128
  | goArray (elem : GoType)
  | goSlice (elem : GoType)
  | goMap (elem : GoType)
  | goPtr (elem : GoType)
  | goStruct (name : String) (fields : List (String × String × Bool × GoType))
  | goChan
  | goFunc
  | goInterface
  | goUnsafePointer
  | goInvalid
deriving Repr

/-- Rendering of `reflect.Type.String()`, used by the source only to name a
type inside an error message. Collection types are rendered in simplified
form (the exact spelling of array lengths and map keys is immaterial). -/
def goTypeName : GoType → String
  | .goString => "string"
  | .goBool => "bool"
  | .goInt => "int"
  | .goInt8 => "int8"
  | .goInt16 => "int16"
  | .goInt32 => "int32"
  | .goInt64 => "int64"
  | .goUint => "uint"
  | .goUint8 => "uint8"
  | .goUint16 => "uint16"
  | .goUint32 => "uint32"
  | .goUint64 => "uint64"
  | .goUintptr => "uintptr"
  | .goFloat32 => "float32"
  | .goFloat64 => "float64"
  | .goComplex64 => "complex64"
  | .goComplex128 => "complex128"
  | .goArray e => "[]" ++ goTypeName e
  | .goSlice e => "[]" ++ goTypeName e
  | .goMap e => "map[string]" ++ goTypeName e
  | .goPtr e => "*" ++ goTypeName e
  | .goStruct n _ => n
  | .goChan => "chan"
  | .goFunc => "func"
  | .goInterface => "interface"
  | .goUnsafePointer => "unsafe.Pointer"
  | .goInvalid => "invalid"

/-- Construction-time errors of the resolver.  Go wraps errors with
`fmt.Errorf("...: %w", err)`, which prefixes context text but preserves the
wrapped error for `errors.Is`; the model keeps the underlying error value.
`goPanic` models a Go runtime panic (the `reflect` package panics when
`VisibleFields` is applied to a non-struct type). -/
inductive TErr where
  | notAStruct
  | unsupportedType (typeName : String)
  | goPanic (msg : String)
  | noCandidates
deriving DecidableEq, Repr

/-- `getJSONType` from resolver.go: maps a reflect kind to the gjson tag
the resolver expects for it.  Booleans map to `gjson.True`; composite kinds
map to `gjson.JSON`; chan/func/interface/unsafe-pointer/invalid kinds are
unsupported.  (The Go `default` branch is unreachable: the switch covers
every reflect kind.) -/
def getJSONType : GoType → Except TErr GType
  | .goString => .ok .TString
  | .goBool => .ok .TTrue
  | .goInt => .ok .TNumber
  | .goInt8 => .ok .TNumber
  | .goInt16 => .ok .TNumber
  | .goInt32 => .ok .TNumber
  | .goInt64 => .ok .TNumber
  | .goUint => .ok .TNumber
  | .goUint8 => .ok .TNumber
  | .goUint16 => .ok .TNumber
  | .goUint32 => .ok .TNumber
  | .goUint64 => .ok .TNumber
  | .goUintptr => .ok .TNumber
  | .goFloat32 => .ok .TNumber
  | .goFloat64 => .ok .TNumber
  | .goComplex64 => .ok .TNumber
  | .goComplex128 => .ok .TNumber
  | .goMap _ => .ok .TJSON
  | .goPtr _ => .ok .TJSON
  | .goSlice _ => .ok .TJSON
  | .goStruct _ _ => .ok .TJSON
  | .goArray _ => .ok .TJSON
  | .goChan => .error (.unsupportedType (goTypeName .goChan))
  | .goFunc => .error (.unsupportedType (goTypeName .goFunc))
  | .goInterface => .error (.unsupportedType (goTypeName .goInterface))
  | .goUnsafePointer => .error (.unsupportedType (goTypeName .goUnsafePointer))
  | .goInvalid => .error (.unsupportedType (goTypeName .goInvalid))

/-- ASCII model of `strings.ToLower` at the character level (Go field
names relevant here are ASCII identifiers). -/
def asciiLower (c : Char) : Char :=
  if 65 ≤ c.toNat ∧ c.toNat ≤ 90 then Char.ofNat (c.toNat + 32) else c

/-- Model of `strings.ToLower`. -/
def toLowerStr (s : String) : String :=
  String.mk (s.toList.map asciiLower)

/-- One step of `cutsetString`'s loop: `strings.ReplaceAll(s, string(c), "")`,
removal of every occurrence of one character. -/
def removeChar (s : String) (c : Char) : String :=
  String.mk (s.toList.filter (fun x => decide (¬(x = c))))

/-- `cutsetString` from resolver.go: removes every character of `cutset`
from `s` (the Go loop splits the cutset into single characters and
replaces each with the empty string in turn). -/
def cutsetString (s cutset : String) : String :=
  cutset.toList.foldl removeChar s

/-- `normalizeName` from resolver.go: lower-case, then strip spaces,
underscores and hyphens. -/
def normalizeName (name : String) : String :=
  cutsetString (toLowerStr name) " _-"

/-- `strings.HasSuffix(path, ".")`: whether the last character is a dot
(the suffix checked by the source is the single character `"."`). -/
def hasSuffixDot (path : String) : Bool :=
  match path.toList.getLast? with
  | some c => decide (c = '.')
  | none => false

/-- `appendToPath` from resolver.go. -/
def appendToPath (path name : String) : String :=
  let name := normalizeName name
  if path.length = 0 ∨ hasSuffixDot path = true then path ++ name
  else path ++ "." ++ name

/-- A candidate's path map (`jsonPaths`, Go `map[string]gjson.Type`),
modelled as an association list with unique keys in insertion order. -/
abbrev JPaths := List (String × GType)

/-- Go map assignment `paths[k] = v`: replace the binding if the key is
present, otherwise append it. -/
def insertPath (ps : JPaths) (k : String) (v : GType) : JPaths :=
  if ps.any (fun e => decide (e.1 = k)) then
    ps.map (fun e => if e.1 = k then (k, v) else e)
  else ps ++ [(k, v)]

/-- The `json:"-"` ignore tag (`jsonIgnoreTag`). -/
def jsonIgnoreTag : String := "-"

/-- `getJSONName` from resolver.go: a field tagged `json:"-"` is named by
the ignore tag itself; every other field keeps its Go name (rename tags
are not honoured by the source). Takes the field name and tag. -/
def getJSONName (fname ftag : String) : String :=
  if ftag = jsonIgnoreTag then jsonIgnoreTag else fname

/-- Whether the kind check `t.Kind() == Array || Slice || Map` of
`buildPathsForField` holds. -/
def isCollection : GoType → Bool
  | .goArray _ => true
  | .goSlice _ => true
  | .goMap _ => true
  | _ => false

mutual

/-- `buildPathsForField` from resolver.go.  Booleans are inserted twice
(`gjson.True` then `gjson.False`), exactly as the source does; primitive
kinds are recorded at the current path; collections stop recursion and
record `gjson.JSON`; the remaining `gjson.JSON` kinds (struct, pointer)
fall through to `reflect.VisibleFields(t)`, which in Go panics when `t`
is not a struct — the pointer case therefore panics (`goPanic`). -/
def buildPathsForField (paths : JPaths) (curr : String) (t : GoType) :
    Except TErr JPaths :=
  match getJSONType t with
  | .error e => .error e
  | .ok jsonType =>
    if jsonType = .TTrue ∨ jsonType = .TFalse then
      .ok (insertPath (insertPath paths curr .TTrue) curr .TFalse)
    else if ¬(jsonType = .TJSON) then
      .ok (insertPath paths curr jsonType)
    else if isCollection t then
      .ok (insertPath paths curr .TJSON)
    else
      match t with
      | .goStruct _ fields => buildPathsForFields paths curr fields
      | _ => .error (.goPanic "reflect.VisibleFields of non-struct type")

/-- The field loop of `buildPathsForField`: skip unexported fields, skip
fields whose json name is the ignore tag, recurse on the rest. -/
def buildPathsForFields (paths : JPaths) (curr : String)
    (fs : List (String × String × Bool × GoType)) : Except TErr JPaths :=
  match fs with
  | [] => .ok paths
  | (fname, ftag, fexp, ftyp) :: rest =>
    if fexp = false then buildPathsForFields paths curr rest
    else
      let name := getJSONName fname ftag
      if name = jsonIgnoreTag then buildPathsForFields paths curr rest
      else
        match buildPathsForField paths (appendToPath curr name) ftyp with
        | .error e => .error e
        | .ok ps => buildPathsForFields ps curr rest

end

/-- The field loop of `buildPathsForRoot`.  Unlike the nested loop in
`buildPathsForFields`, the root loop checks only exportedness: it does NOT
skip fields whose json name is the ignore tag (mirroring the source, where
the `jsonIgnoreTag` check appears only in `buildPathsForField`). -/
def buildRootFields (paths : JPaths)
    (fs : List (String × String × Bool × GoType)) : Except TErr JPaths :=
  match fs with
  | [] => .ok paths
  | (fname, ftag, fexp, ftyp) :: rest =>
    if fexp = false then buildRootFields paths rest
    else
      match buildPathsForField paths (appendToPath "" (getJSONName fname ftag)) ftyp with
      | .error e => .error e
      | .ok ps => buildRootFields ps rest

/-- `buildPathsForRoot` from resolver.go: the candidate type must be a
struct; its visible exported fields are walked from the empty path. -/
def buildPathsForRoot (t : GoType) : Except TErr JPaths :=
  match t with
  | .goStruct _ fields => buildRootFields [] fields
  | _ => .error .notAStruct

/-- A registered candidate (`candidate` in parameter.go together with its
built path map).  `typ` models the candidate's `reflect.Type` identity as
an opaque token: the source only ever compares candidate types for
equality and hands the winning one back, so type identity is abstracted
to the rendered type name. -/
structure Cand where
  typ : String
  paths : JPaths
deriving DecidableEq, Repr

/-- Membership of one `(path, kind)` entry in candidate `k` of a state. -/
def entryAt (cs : List Cand) (k : Nat) (p : String) (t : GType) : Bool :=
  match cs[k]? with
  | some c => decide ((p, t) ∈ c.paths)
  | none => false

/-- `delete(paths, p)` guarded by `typeA == typeB`: removal of the entry
`(p, t)` from a path map. -/
def removeEntry (p : String) (t : GType) (ps : JPaths) : JPaths :=
  ps.filter (fun e => decide (¬(e = (p, t))))

/-- Whether the inner loop of `makeUniquePaths` found the entry `(p, t)`
in some candidate of a type different from `atyp`. -/
def entryMatched (cs : List Cand) (atyp : String) (p : String) (t : GType) : Bool :=
  cs.any (fun b => decide (¬(b.typ = atyp)) && decide ((p, t) ∈ b.paths))

/-- The deletions `delete(pathsB, pathB)` performed by the middle loop of
`makeUniquePaths` while the outer candidate's type is `atyp`: every
candidate of a different type loses the entry `(p, t)`; candidates of the
same type are skipped (`candidateA.typ == candidateB.typ` `continue`s in
the source). -/
def pruneOthers (cs : List Cand) (atyp : String) (p : String) (t : GType) : List Cand :=
  cs.map (fun b => if b.typ = atyp then b else ⟨b.typ, removeEntry p t b.paths⟩)

/-- The inner two loops of `makeUniquePaths` for one entry `(p, t)` of the
candidate at index `i` (whose type is `atyp`): candidates of other types
holding the identical entry lose it, and if any such candidate exists the
entry is also deleted (`delete(pathsA, pathA)`) from candidate `i`
itself. -/
def processEntry (cs : List Cand) (i : Nat) (atyp : String) (p : String)
    (t : GType) : List Cand :=
  if entryMatched cs atyp p t then
    match (pruneOthers cs atyp p t)[i]? with
    | some c => (pruneOthers cs atyp p t).set i ⟨c.typ, removeEntry p t c.paths⟩
    | none => pruneOthers cs atyp p t
  else pruneOthers cs atyp p t

/-- The per-candidate entry loop of `makeUniquePaths`: the entries of the
candidate at index `i` (a snapshot taken when the outer loop reaches it;
Go deletes only the current key of the map being ranged over, which does
not disturb the iteration) are processed in order. -/
def processEntries (cs : List Cand) (i : Nat) (atyp : String) :
    List (String × GType) → List Cand
  | [] => cs
  | (p, t) :: rest => processEntries (processEntry cs i atyp p t) i atyp rest

/-- One step of the outer loop of `makeUniquePaths`: process every entry
of the candidate at index `i`. -/
def processCand (cs : List Cand) (i : Nat) : List Cand :=
  match cs[i]? with
  | some c => processEntries cs i c.typ c.paths
  | none => cs

/-- The outer loop of `makeUniquePaths`, visiting candidates `i`,
`i + 1`, … for `n` steps. -/
def muAux : List Cand → Nat → Nat → List Cand
  | cs, _, 0 => cs
  | cs, i, Nat.succ n => muAux (processCand cs i) (i + 1) n

/-- `makeUniquePaths` from resolver.go: for every candidate in turn, every
entry it shares identically with a candidate of a different type is
deleted from both maps. -/
def makeUniquePaths (cs : List Cand) : List Cand :=
  muAux cs 0 cs.length

/-- The per-candidate loop body of `ResolveJSON`: true as soon as one
fingerprint entry's document lookup carries the expected type tag.  The
document is modelled at the gjson interface as the function
`path ↦ res.Get(path).Type` (a missing path yields the zero Result, whose
tag is `gjson.Null`). -/
def resolveCand (doc : String → GType) (ps : JPaths) : Bool :=
  ps.any (fun e => decide (doc e.1 = e.2))

/-- `ResolveJSON` from resolver.go.  Returns the pair of Go results
`(reflect.Type, error)`: the first candidate with a matching entry wins,
and the error result is `nil` on every path (`Unit` stands for the Go
error type, which the function never produces). -/
def ResolveJSON : List Cand → (String → GType) → Option String × Option Unit
  | [], _ => (none, none)
  | c :: rest, doc =>
    if resolveCand doc c.paths then (some c.typ, none) else ResolveJSON rest doc

/-- The candidate-path construction loop of `newTraverseResolver`:
`buildPathsForRoot` per candidate, first error aborts. -/
def buildAll : List GoType → Except TErr (List Cand)
  | [] => .ok []
  | t :: rest =>
    match buildPathsForRoot t with
    | .error e => .error e
    | .ok ps =>
      match buildAll rest with
      | .error e => .error e
      | .ok cs => .ok (⟨goTypeName t, ps⟩ :: cs)

/-- `newTraverseResolver` from resolver.go: build every candidate's path
map, then prune to fingerprints with `makeUniquePaths`.  Logging is
ignored (informational only). -/
def newTraverseResolver (candidates : List GoType) : Except TErr (List Cand) :=
  match buildAll candidates with
  | .error e => .error e
  | .ok cps => .ok (makeUniquePaths cps)

/-- The engine (`Unmarshaler` from unmarshaler.go): the cached fingerprint
sets.  Settings carry no resolution semantics and are dropped. -/
structure Engine where
  paths : List Cand
deriving DecidableEq, Repr

/-- `New` from unmarshaler.go, restricted to `Candidate` parameters (the
selector, fallback and setting parameters are accepted by `newEnv` but
never consulted by resolution): `newEnv` rejects an empty candidate list,
then the traverse resolver is built; any error aborts construction with
no engine value. -/
def New (candidates : List GoType) : Except TErr Engine :=
  if candidates.length = 0 then .error .noCandidates
  else
    match newTraverseResolver candidates with
    | .error e => .error e
    | .ok cands => .ok ⟨cands⟩

/-- Root type tagging of `gjson.Parse` / `gjson.ParseBytes`, modelled
character for character from the gjson source: the first `{` or `[` byte
tags the document `JSON`; otherwise the first non-space byte decides
(string, number, or the three literals); anything else — including an
empty or unparseable buffer — yields the zero `Result`, whose tag is
`Null`. -/
def parseRootAux : List Char → GType
  | [] => .TNull
  | c :: rest =>
    if c = '{' ∨ c = '[' then .TJSON
    else if c.toNat ≤ 32 then parseRootAux rest
    else if c = '"' then .TString
    else if c = 'n' then .TNull
    else if c = 't' then .TTrue
    else if c = 'f' then .TFalse
    else if (48 ≤ c.toNat ∧ c.toNat ≤ 57) ∨ c = '-' then .TNumber
    else .TNull

/-- Root type tag of a raw input buffer. -/
def parseRoot (s : String) : GType :=
  parseRootAux s.toList

/-- Request-time errors of `UnmarshalJSON` (unmarshaler.go): the
"invalid json: not an object" guard error, the wrapper for a resolver
error, `ErrNoMatch`, and the wrapper for a failed final decode. -/
inductive UErr where
  | invalidJson
  | resolveFailed
  | noMatch
  | decodeFailed
deriving DecidableEq, Repr

/-- A parsed input document at the gjson interface: the raw buffer (used
for root tagging), the per-path type tags `path ↦ res.Get(path).Type`,
and a model of whether the external `json.Unmarshal` pass accepts the
buffer for a given target type. -/
structure Doc where
  raw : String
  get : String → GType
  unmarshalOk : String → Bool

/-- `UnmarshalJSON` from unmarshaler.go: parse, reject a root whose tag
is not `gjson.JSON`, resolve, surface `ErrNoMatch` on a nil type, and
finally run the external typed decode; the decoded value is modelled by
the resolved type identity the caller downcasts on. -/
def UnmarshalJSON (u : Engine) (d : Doc) : Except UErr String :=
  if ¬(parseRoot d.raw = .TJSON) then .error .invalidJson
  else
    match ResolveJSON u.paths d.get with
    | (_, some _) => .error .resolveFailed
    | (none, none) => .error .noMatch
    | (some typ, none) =>
      if d.unmarshalOk typ then .ok typ else .error .decodeFailed

/-! ### Normalization lemmas (Shape Walker path segments) -/

theorem toNat_asciiLower_ofNat (n : Nat) (h : n < 55296) :
    (Char.ofNat n).toNat = n := by
  have hv : n.isValidChar := Or.inl h
  rw [Char.ofNat, dif_pos hv]
  simp [Char.ofNatAux, Char.toNat, UInt32.toNat, BitVec.toNat_ofNatLt]

theorem asciiLower_idem (c : Char) : asciiLower (asciiLower c) = asciiLower c := by
  unfold asciiLower
  by_cases h : 65 ≤ c.toNat ∧ c.toNat ≤ 90
  · rw [if_pos h]
    have ht : (Char.ofNat (c.toNat + 32)).toNat = c.toNat + 32 :=
      toNat_asciiLower_ofNat _ (by omega)
    rw [if_neg (by omega)]
  · rw [if_neg h, if_neg h]

/-- The character filter implemented by `cutsetString _ " _-"`. -/
def notCutChar (c : Char) : Bool :=
  decide (¬(c = ' ' ∨ c = '_' ∨ c = '-'))

theorem normalizeName_eq (s : String) :
    normalizeName s = String.mk ((s.toList.map asciiLower).filter notCutChar) := by
  have hcut : (" _-" : String).toList = [' ', '_', '-'] := rfl
  unfold normalizeName cutsetString
  rw [hcut]
  show removeChar (removeChar (removeChar (toLowerStr s) ' ') '_') '-' = _
  unfold removeChar toLowerStr
  show String.mk ((((s.toList.map asciiLower).filter _).filter _).filter _) = _
  rw [List.filter_filter, List.filter_filter]
  congr 1
  apply List.filter_congr
  intro c _
  by_cases h1 : c = ' ' <;> by_cases h2 : c = '_' <;> by_cases h3 : c = '-' <;>
    simp [notCutChar, h1, h2, h3]

theorem norm_list_idem (l : List Char) :
    ((l.map asciiLower).filter notCutChar).map asciiLower =
      (l.map asciiLower).filter notCutChar := by
  induction l with
  | nil => rfl
  | cons c rest ih =>
    by_cases h : notCutChar (asciiLower c)
    · simp only [List.map_cons, List.filter_cons, h, if_pos, List.map_cons]
      rw [asciiLower_idem]
      exact congrArg _ ih
    · simp only [List.map_cons, List.filter_cons, Bool.not_eq_true] at h ⊢
      rw [h]
      simpa using ih

/--
C8: `normalizeName` is idempotent; it lower-cases its input and strips
spaces, underscores and hyphens; and the differently-styled names
`Foo Bar`, `foo_bar` and `foo-bar` all normalize to the identical path
segment `foobar`.
-/
theorem normalizeName_idem_insensitive :
    (∀ s, normalizeName (normalizeName s) = normalizeName s)
    ∧ (∀ s, normalizeName s =
        String.mk ((s.toList.map asciiLower).filter notCutChar))
    ∧ normalizeName "Foo Bar" = "foobar"
    ∧ normalizeName "foo_bar" = "foobar"
    ∧ normalizeName "foo-bar" = "foobar" := by
  refine ⟨fun s => ?_, normalizeName_eq, rfl, rfl, rfl⟩
  rw [normalizeName_eq s, normalizeName_eq]
  show String.mk (((((s.toList.map asciiLower).filter notCutChar)).map asciiLower).filter notCutChar) = _
  rw [norm_list_idem, List.filter_filter]
  congr 1
  apply List.filter_congr
  intro c _
  cases h : notCutChar c <;> simp [h]

/-! ### Resolver lemmas -/

theorem resolveCand_iff (doc : String → GType) (ps : JPaths) :
    resolveCand doc ps = true ↔ ∃ e ∈ ps, doc e.1 = e.2 := by
  unfold resolveCand
  simp

theorem ResolveJSON_err (cs : List Cand) (doc : String → GType) :
    (ResolveJSON cs doc).2 = none := by
  induction cs with
  | nil => rfl
  | cons c rest ih =>
    unfold ResolveJSON
    by_cases h : resolveCand doc c.paths <;> simp [h, ih]

theorem ResolveJSON_eq_find (cs : List Cand) (doc : String → GType) :
    (ResolveJSON cs doc).1 =
      (cs.find? (fun c => resolveCand doc c.paths)).map Cand.typ := by
  induction cs with
  | nil => rfl
  | cons c rest ih =>
    unfold ResolveJSON
    by_cases h : resolveCand doc c.paths
    · have hf : (c :: rest).find? (fun c => resolveCand doc c.paths) = some c :=
        List.find?_cons_of_pos _ h
      rw [if_pos h, hf]
      rfl
    · have hf : (c :: rest).find? (fun c => resolveCand doc c.paths) =
          rest.find? (fun c => resolveCand doc c.paths) :=
        List.find?_cons_of_neg _ (by simpa using h)
      rw [if_neg h, hf]
      exact ih

/--
C10: the resolver's error result is `nil` on every path — resolution
yields either a candidate type or the nil no-match outcome — so the
orchestrator's branch wrapping a resolver-internal fault
(`UErr.resolveFailed`) is unreachable: every call lands in one of the
other four outcomes.
-/
theorem resolver_error_always_nil :
    (∀ (cs : List Cand) (doc : String → GType), (ResolveJSON cs doc).2 = none)
    ∧ (∀ (u : Engine) (d : Doc),
        UnmarshalJSON u d = .error .invalidJson
        ∨ UnmarshalJSON u d = .error .noMatch
        ∨ UnmarshalJSON u d = .error .decodeFailed
        ∨ ∃ t, UnmarshalJSON u d = .ok t) := by
  refine ⟨ResolveJSON_err, fun u d => ?_⟩
  unfold UnmarshalJSON
  split
  · exact Or.inl rfl
  · rcases hres : ResolveJSON u.paths d.get with ⟨o, e⟩
    have h2 := ResolveJSON_err u.paths d.get
    rw [hres] at h2
    simp only at h2
    subst h2
    cases o with
    | none => exact Or.inr (Or.inl rfl)
    | some typ =>
      by_cases hu : d.unmarshalOk typ = true
      · refine Or.inr (Or.inr (Or.inr ⟨typ, ?_⟩))
        show (if d.unmarshalOk typ = true then (Except.ok typ : Except UErr String)
          else .error .decodeFailed) = .ok typ
        rw [if_pos hu]
      · refine Or.inr (Or.inr (Or.inl ?_))
        show (if d.unmarshalOk typ = true then (Except.ok typ : Except UErr String)
          else .error .decodeFailed) = .error .decodeFailed
        rw [if_neg hu]

/--
C6: resolution returns the first candidate one of whose fingerprint
entries has a document lookup with the expected type tag (entries are
never conjoined: one matching entry suffices, characterized exactly by
`List.find?`), and when no entry of any candidate matches, the
orchestrator surfaces the distinguished `ErrNoMatch` outcome instead of
a decoded value.
-/
theorem resolver_existential_first_match :
    (∀ (cs : List Cand) (doc : String → GType),
      (ResolveJSON cs doc).1 =
        (cs.find? (fun c => resolveCand doc c.paths)).map Cand.typ)
    ∧ (∀ (cs : List Cand) (doc : String → GType) (c : Cand), c ∈ cs →
        (∃ e ∈ c.paths, doc e.1 = e.2) →
        ∃ c2 ∈ cs, (ResolveJSON cs doc).1 = some c2.typ ∧
          ∃ e ∈ c2.paths, doc e.1 = e.2)
    ∧ (∀ (cs : List Cand) (doc : String → GType),
        (ResolveJSON cs doc).1 = none →
        ∀ c ∈ cs, ∀ e ∈ c.paths, ¬(doc e.1 = e.2))
    ∧ (∀ (u : Engine) (d : Doc),
        parseRoot d.raw = .TJSON →
        (ResolveJSON u.paths d.get).1 = none →
        UnmarshalJSON u d = .error .noMatch) := by
  refine ⟨ResolveJSON_eq_find, ?_, ?_, ?_⟩
  · intro cs doc c hc hex
    have hsome : (cs.find? (fun c => resolveCand doc c.paths)).isSome := by
      rw [List.find?_isSome]
      exact ⟨c, hc, (resolveCand_iff doc c.paths).mpr hex⟩
    rcases Option.isSome_iff_exists.mp hsome with ⟨c2, hfind⟩
    refine ⟨c2, List.mem_of_find?_eq_some hfind, ?_, ?_⟩
    · rw [ResolveJSON_eq_find, hfind]
      rfl
    · have hp := List.find?_some hfind
      exact (resolveCand_iff doc c2.paths).mp hp
  · intro cs doc hnone c hc e he
    rw [ResolveJSON_eq_find] at hnone
    have hfind : cs.find? (fun c => resolveCand doc c.paths) = none := by
      cases hf : cs.find? (fun c => resolveCand doc c.paths) with
      | none => rfl
      | some c2 => rw [hf] at hnone; simp at hnone
    have := List.find?_eq_none.mp hfind c hc
    intro hdoc
    exact this ((resolveCand_iff doc c.paths).mpr ⟨e, he, hdoc⟩)
  · intro u d hroot hnone
    unfold UnmarshalJSON
    rw [if_neg (by simpa using hroot)]
    rcases hres : ResolveJSON u.paths d.get with ⟨o, e⟩
    have h2 := ResolveJSON_err u.paths d.get
    rw [hres] at h2
    simp only at h2
    subst h2
    rw [hres] at hnone
    simp only at hnone
    subst hnone
    simp

/-! ### Fingerprint-builder lemmas -/

theorem mem_removeEntry {q : String × GType} {p : String} {t : GType}
    {ps : JPaths} : q ∈ removeEntry p t ps ↔ q ∈ ps ∧ ¬(q = (p, t)) := by
  unfold removeEntry
  simp

theorem removeEntry_eq_self {p : String} {t : GType} {ps : JPaths}
    (h : ¬((p, t) ∈ ps)) : removeEntry p t ps = ps := by
  unfold removeEntry
  apply List.filter_eq_self.mpr
  intro a ha
  simp only [decide_eq_true_eq]
  intro hq
  exact h (hq ▸ ha)

theorem entryAt_true_iff {cs : List Cand} {k : Nat} {p : String} {t : GType} :
    entryAt cs k p t = true ↔ ∃ c, cs[k]? = some c ∧ (p, t) ∈ c.paths := by
  unfold entryAt
  cases h : cs[k]? with
  | none => simp
  | some c => simp [h]

theorem entryAt_lt {cs : List Cand} {k : Nat} {p : String} {t : GType}
    (h : entryAt cs k p t = true) : k < cs.length := by
  rcases entryAt_true_iff.mp h with ⟨c, hc, _⟩
  rcases List.getElem?_eq_some_iff.mp hc with ⟨hlt, _⟩
  exact hlt

theorem set_self_of_getElem? {α : Type} {l : List α} {i : Nat} {a : α}
    (h : l[i]? = some a) : l.set i a = l := by
  apply List.ext_getElem?
  intro n
  rw [List.getElem?_set]
  by_cases hin : i = n
  · subst hin
    rcases List.getElem?_eq_some_iff.mp h with ⟨hlt, _⟩
    rw [if_pos rfl, if_pos hlt, h]
  · rw [if_neg hin]

theorem getElem?_pruneOthers {cs : List Cand} {a p t} {k : Nat} :
    (pruneOthers cs a p t)[k]? =
      (cs[k]?).map (fun b => if b.typ = a then b else ⟨b.typ, removeEntry p t b.paths⟩) :=
  List.getElem?_map ..

theorem length_pruneOthers {cs : List Cand} {a p t} :
    (pruneOthers cs a p t).length = cs.length :=
  List.length_map ..

theorem length_processEntry {cs : List Cand} {i : Nat} {a p t} :
    (processEntry cs i a p t).length = cs.length := by
  unfold processEntry
  split
  · split
    · rw [List.length_set, length_pruneOthers]
    · rw [length_pruneOthers]
  · rw [length_pruneOthers]

theorem typs_pruneOthers {cs : List Cand} {a p t} :
    (pruneOthers cs a p t).map Cand.typ = cs.map Cand.typ := by
  unfold pruneOthers
  rw [List.map_map]
  apply List.map_congr_left
  intro b _
  by_cases h : b.typ = a <;> simp [h]

theorem typs_processEntry {cs : List Cand} {i : Nat} {a p t} :
    (processEntry cs i a p t).map Cand.typ = cs.map Cand.typ := by
  unfold processEntry
  split
  · split
    case _ c hc =>
      rw [List.map_set, typs_pruneOthers]
      show (cs.map Cand.typ).set i (Cand.typ ⟨c.typ, removeEntry p t c.paths⟩)
        = cs.map Cand.typ
      apply set_self_of_getElem?
      rw [List.getElem?_map]
      rw [getElem?_pruneOthers] at hc
      rcases hmap : cs[i]? with _ | b
      · rw [hmap] at hc; simp at hc
      · rw [hmap] at hc
        have hc2 : (if b.typ = a then b else
            (⟨b.typ, removeEntry p t b.paths⟩ : Cand)) = c := by
          simpa using hc
        have hbt : Cand.typ ⟨c.typ, removeEntry p t c.paths⟩ = b.typ := by
          show c.typ = b.typ
          rw [← hc2]
          by_cases h : b.typ = a <;> simp [h]
        rw [hbt]
        rfl
    · exact typs_pruneOthers
  · exact typs_pruneOthers

theorem not_mem_removeEntry_self {p : String} {t : GType} {ps : JPaths} :
    ¬((p, t) ∈ removeEntry p t ps) := by
  intro h
  exact (mem_removeEntry.mp h).2 rfl

theorem option_map_some {α β : Type} (f : α → β) (a : α) :
    Option.map f (some a) = some (f a) := rfl

theorem entryAt_pruneOthers_ne {cs : List Cand} {a : String} {p : String}
    {t : GType} {k : Nat} {q : String} {s : GType} (hne : ¬((q, s) = (p, t))) :
    entryAt (pruneOthers cs a p t) k q s = entryAt cs k q s := by
  unfold entryAt
  rw [getElem?_pruneOthers]
  rcases cs[k]? with _ | b
  · rfl
  · rw [option_map_some]
    show decide ((q, s) ∈ (if b.typ = a then b
      else (⟨b.typ, removeEntry p t b.paths⟩ : Cand)).paths) = decide ((q, s) ∈ b.paths)
    by_cases h : b.typ = a
    · rw [if_pos h]
    · rw [if_neg h]
      show decide ((q, s) ∈ removeEntry p t b.paths) = decide ((q, s) ∈ b.paths)
      simp [mem_removeEntry, hne]

theorem entryAt_processEntry_ne {cs : List Cand} {i : Nat} {a : String}
    {p : String} {t : GType} {k : Nat} {q : String} {s : GType}
    (hne : ¬((q, s) = (p, t))) :
    entryAt (processEntry cs i a p t) k q s = entryAt cs k q s := by
  unfold processEntry
  split
  · split
    case _ c hc =>
      by_cases hk : k = i
      · subst hk
        unfold entryAt
        rcases List.getElem?_eq_some_iff.mp hc with ⟨hlt, _⟩
        rw [List.getElem?_set_self hlt]
        have h2 : entryAt (pruneOthers cs a p t) k q s = entryAt cs k q s :=
          entryAt_pruneOthers_ne hne
        unfold entryAt at h2
        rw [hc] at h2
        rw [← h2]
        show decide ((q, s) ∈ removeEntry p t c.paths) = decide ((q, s) ∈ c.paths)
        simp [mem_removeEntry, hne]
      · unfold entryAt
        rw [List.getElem?_set_ne (fun h => hk h.symm)]
        have h2 : entryAt (pruneOthers cs a p t) k q s = entryAt cs k q s :=
          entryAt_pruneOthers_ne hne
        unfold entryAt at h2
        exact h2
    · exact entryAt_pruneOthers_ne hne
  · exact entryAt_pruneOthers_ne hne

theorem entryAt_pruneOthers_mono {cs : List Cand} {a : String} {p : String}
    {t : GType} {k : Nat} {q : String} {s : GType}
    (h : entryAt (pruneOthers cs a p t) k q s = true) : entryAt cs k q s = true := by
  unfold entryAt at h ⊢
  rw [getElem?_pruneOthers] at h
  rcases hk : cs[k]? with _ | b
  · rw [hk] at h; simp at h
  · rw [hk] at h
    rw [option_map_some] at h
    have h2 : decide ((q, s) ∈ (if b.typ = a then b
      else (⟨b.typ, removeEntry p t b.paths⟩ : Cand)).paths) = true := h
    by_cases hb : b.typ = a
    · rw [if_pos hb] at h2; exact h2
    · rw [if_neg hb] at h2
      have h3 : decide ((q, s) ∈ removeEntry p t b.paths) = true := h2
      simp only [decide_eq_true_eq] at h3 ⊢
      exact (mem_removeEntry.mp h3).1

theorem entryAt_processEntry_mono {cs : List Cand} {i : Nat} {a : String}
    {p : String} {t : GType} {k : Nat} {q : String} {s : GType}
    (h : entryAt (processEntry cs i a p t) k q s = true) :
    entryAt cs k q s = true := by
  unfold processEntry at h
  revert h
  split
  · split
    case _ c hc =>
      intro h
      by_cases hk : k = i
      · subst hk
        apply entryAt_pruneOthers_mono (a := a) (p := p) (t := t)
        unfold entryAt at h ⊢
        rcases List.getElem?_eq_some_iff.mp hc with ⟨hlt, _⟩
        rw [List.getElem?_set_self hlt] at h
        rw [hc]
        simp only [decide_eq_true_eq] at h ⊢
        exact (mem_removeEntry.mp h).1
      · apply entryAt_pruneOthers_mono (a := a) (p := p) (t := t)
        unfold entryAt at h ⊢
        rw [List.getElem?_set_ne (fun hh => hk hh.symm)] at h
        exact h
    · exact fun h => entryAt_pruneOthers_mono h
  · exact fun h => entryAt_pruneOthers_mono h

theorem entryMatched_true_iff {cs : List Cand} {a p : String} {t : GType} :
    entryMatched cs a p t = true ↔ ∃ b ∈ cs, ¬(b.typ = a) ∧ (p, t) ∈ b.paths := by
  unfold entryMatched
  simp

theorem typ_getElem?_of_getElem? {cs : List Cand} {k : Nat} {b : Cand}
    (h : cs[k]? = some b) : (cs.map Cand.typ)[k]? = some b.typ := by
  rw [List.getElem?_map, h]
  rfl

theorem pairwise_typ_eq_index {cs : List Cand}
    (hdist : (cs.map Cand.typ).Pairwise (fun x y => ¬(x = y)))
    {i k : Nat} {ci b : Cand} (hi : cs[i]? = some ci) (hk : cs[k]? = some b)
    (htyp : b.typ = ci.typ) : k = i := by
  by_contra hne
  have h1 := typ_getElem?_of_getElem? hi
  have h2 := typ_getElem?_of_getElem? hk
  rcases List.getElem?_eq_some_iff.mp h1 with ⟨hlt1, he1⟩
  rcases List.getElem?_eq_some_iff.mp h2 with ⟨hlt2, he2⟩
  rcases Nat.lt_or_ge k i with h | h
  · exact (List.pairwise_iff_getElem.mp hdist k i hlt2 hlt1 h) (by rw [he2, he1, htyp])
  · have hik : i < k := Nat.lt_of_le_of_ne h (fun hh => hne hh.symm)
    exact (List.pairwise_iff_getElem.mp hdist i k hlt1 hlt2 hik)
      (by rw [he1, he2, htyp])

theorem entryAt_processEntry_same_unmatched {cs : List Cand} {i : Nat}
    {a p : String} {t : GType} (hm : entryMatched cs a p t = false) (k : Nat) :
    entryAt (processEntry cs i a p t) k p t = entryAt cs k p t := by
  unfold processEntry
  rw [if_neg (by rw [hm]; exact Bool.false_ne_true)]
  unfold entryAt
  rw [getElem?_pruneOthers]
  rcases hk : cs[k]? with _ | b
  · rfl
  · rw [option_map_some]
    show decide ((p, t) ∈ (if b.typ = a then b
      else (⟨b.typ, removeEntry p t b.paths⟩ : Cand)).paths) = decide ((p, t) ∈ b.paths)
    by_cases hb : b.typ = a
    · rw [if_pos hb]
    · rw [if_neg hb]
      have hnb : ¬((p, t) ∈ b.paths) := by
        intro hmem
        have : entryMatched cs a p t = true :=
          entryMatched_true_iff.mpr ⟨b, List.getElem?_mem hk, hb, hmem⟩
        rw [hm] at this
        exact Bool.false_ne_true this
      show decide ((p, t) ∈ removeEntry p t b.paths) = decide ((p, t) ∈ b.paths)
      simp [not_mem_removeEntry_self, hnb]

theorem entryAt_processEntry_same_matched {cs : List Cand} {i : Nat}
    {a p : String} {t : GType}
    (hdist : (cs.map Cand.typ).Pairwise (fun x y => ¬(x = y)))
    (hia : (cs.map Cand.typ)[i]? = some a)
    (hm : entryMatched cs a p t = true) (k : Nat) :
    entryAt (processEntry cs i a p t) k p t = false := by
  have hci : ∃ ci, cs[i]? = some ci ∧ ci.typ = a := by
    rw [List.getElem?_map] at hia
    rcases hi : cs[i]? with _ | ci
    · rw [hi] at hia; simp at hia
    · rw [hi] at hia
      rw [option_map_some] at hia
      exact ⟨ci, rfl, by injection hia⟩
  rcases hci with ⟨ci, hi, htyp⟩
  unfold processEntry
  rw [if_pos hm]
  have hc1 : (pruneOthers cs a p t)[i]? =
      some (if ci.typ = a then ci else ⟨ci.typ, removeEntry p t ci.paths⟩) := by
    rw [getElem?_pruneOthers, hi, option_map_some]
  rw [hc1]
  have hlt1 : i < (pruneOthers cs a p t).length := by
    rcases List.getElem?_eq_some_iff.mp hc1 with ⟨hlt, _⟩
    exact hlt
  by_cases hk : k = i
  · subst hk
    unfold entryAt
    rw [List.getElem?_set_self hlt1]
    simp [not_mem_removeEntry_self]
  · unfold entryAt
    rw [List.getElem?_set_ne (fun hh => hk hh.symm), getElem?_pruneOthers]
    rcases hkk : cs[k]? with _ | b
    · rfl
    · rw [option_map_some]
      by_cases hb : b.typ = a
      · exact absurd (pairwise_typ_eq_index hdist hi hkk (htyp ▸ hb)) hk
      · rw [if_neg hb]
        show decide ((p, t) ∈ removeEntry p t b.paths) = false
        simp [not_mem_removeEntry_self]

/-- The entry `(p, t)` occurs in no candidate of the state. -/
def Dead (cs : List Cand) (p : String) (t : GType) : Prop :=
  ∀ k, entryAt cs k p t = false

/-- The running invariant of `makeUniquePaths` for one tracked entry
`(p, t)`: relative to the original state `O`, either every candidate still
holds the entry exactly as originally, or the entry has been deleted from
every candidate at once. -/
def QInv (O cs : List Cand) (p : String) (t : GType) : Prop :=
  (∀ k, entryAt cs k p t = entryAt O k p t) ∨ Dead cs p t

theorem Dead_processEntry {cs : List Cand} {i : Nat} {a q : String}
    {s : GType} {p : String} {t : GType} (hd : Dead cs p t) :
    Dead (processEntry cs i a q s) p t := by
  intro k
  cases h : entryAt (processEntry cs i a q s) k p t
  · rfl
  · have := entryAt_processEntry_mono h
    rw [hd k] at this
    exact absurd this Bool.false_ne_true

theorem QInv_processEntry {O cs : List Cand} {i : Nat} {a q : String}
    {s : GType} {p : String} {t : GType}
    (hdist : (cs.map Cand.typ).Pairwise (fun x y => ¬(x = y)))
    (hia : (cs.map Cand.typ)[i]? = some a)
    (hQ : QInv O cs p t) : QInv O (processEntry cs i a q s) p t := by
  by_cases hqs : (p, t) = (q, s)
  · rcases Prod.mk.injEq .. ▸ hqs with ⟨hp, ht⟩
    subst hp; subst ht
    cases hm : entryMatched cs a p t
    · rcases hQ with hL | hD
      · exact Or.inl (fun k => by
          rw [entryAt_processEntry_same_unmatched hm k]; exact hL k)
      · exact Or.inr (Dead_processEntry hD)
    · exact Or.inr (fun k => entryAt_processEntry_same_matched hdist hia hm k)
  · rcases hQ with hL | hD
    · exact Or.inl (fun k => by
        rw [entryAt_processEntry_ne hqs]
        exact hL k)
    · exact Or.inr (fun k => by
        rw [entryAt_processEntry_ne hqs]
        exact hD k)

theorem typs_processEntries {cs : List Cand} {i : Nat} {a : String}
    (L : List (String × GType)) :
    (processEntries cs i a L).map Cand.typ = cs.map Cand.typ := by
  induction L generalizing cs with
  | nil => rfl
  | cons e rest ih =>
    rcases e with ⟨q, s⟩
    unfold processEntries
    rw [ih, typs_processEntry]

theorem Dead_processEntries {cs : List Cand} {i : Nat} {a : String}
    {p : String} {t : GType} (L : List (String × GType)) (hd : Dead cs p t) :
    Dead (processEntries cs i a L) p t := by
  induction L generalizing cs with
  | nil => exact hd
  | cons e rest ih =>
    rcases e with ⟨q, s⟩
    unfold processEntries
    exact ih (Dead_processEntry hd)

theorem entryAt_processEntries_mono {cs : List Cand} {i : Nat} {a : String}
    {k : Nat} {q : String} {s : GType} (L : List (String × GType))
    (h : entryAt (processEntries cs i a L) k q s = true) :
    entryAt cs k q s = true := by
  induction L generalizing cs with
  | nil => exact h
  | cons e rest ih =>
    rcases e with ⟨q2, s2⟩
    unfold processEntries at h
    exact entryAt_processEntry_mono (ih h)

theorem QInv_processEntries {O cs : List Cand} {i : Nat} {a : String}
    {p : String} {t : GType} (L : List (String × GType))
    (hdist : (cs.map Cand.typ).Pairwise (fun x y => ¬(x = y)))
    (hia : (cs.map Cand.typ)[i]? = some a)
    (hQ : QInv O cs p t) : QInv O (processEntries cs i a L) p t := by
  induction L generalizing cs with
  | nil => exact hQ
  | cons e rest ih =>
    rcases e with ⟨q, s⟩
    unfold processEntries
    exact ih (by rw [typs_processEntry]; exact hdist)
      (by rw [typs_processEntry]; exact hia)
      (QInv_processEntry hdist hia hQ)

/-- Progress: once the outer loop has reached a candidate whose snapshot
contains the tracked entry, and some other candidate originally holds it
too, the entry is dead in the resulting state. -/
theorem processEntries_kills {O cs : List Cand} {i : Nat} {a : String}
    {p : String} {t : GType} (L : List (String × GType))
    (hdist : (cs.map Cand.typ).Pairwise (fun x y => ¬(x = y)))
    (hia : (cs.map Cand.typ)[i]? = some a)
    (hQ : QInv O cs p t)
    (hmem : (p, t) ∈ L)
    (hother : ∃ j, ¬(j = i) ∧ entryAt O j p t = true) :
    Dead (processEntries cs i a L) p t := by
  induction L generalizing cs with
  | nil => exact absurd hmem (List.not_mem_nil _)
  | cons e rest ih =>
    rcases e with ⟨q, s⟩
    by_cases hqs : (p, t) = (q, s)
    · rcases Prod.mk.injEq .. ▸ hqs with ⟨hp, ht⟩
      subst hp; subst ht
      rcases hQ with hL | hD
      · rcases hother with ⟨j, hji, hj⟩
        have hcsj : entryAt cs j p t = true := by rw [hL j]; exact hj
        rcases entryAt_true_iff.mp hcsj with ⟨b, hbj, hbmem⟩
        have hci : ∃ ci, cs[i]? = some ci ∧ ci.typ = a := by
          rw [List.getElem?_map] at hia
          rcases hi : cs[i]? with _ | ci
          · rw [hi] at hia; simp at hia
          · rw [hi] at hia
            rw [option_map_some] at hia
            exact ⟨ci, rfl, by injection hia⟩
        rcases hci with ⟨ci, hi, htyp⟩
        have hbtyp : ¬(b.typ = a) := by
          intro hb
          exact hji (pairwise_typ_eq_index hdist hi hbj (htyp ▸ hb))
        have hm : entryMatched cs a p t = true :=
          entryMatched_true_iff.mpr ⟨b, List.getElem?_mem hbj, hbtyp, hbmem⟩
        unfold processEntries
        exact Dead_processEntries rest
          (fun k => entryAt_processEntry_same_matched hdist hia hm k)
      · unfold processEntries
        exact Dead_processEntries rest (Dead_processEntry hD)
    · have hrest : (p, t) ∈ rest := by
        rcases List.mem_cons.mp hmem with h | h
        · exact absurd h hqs
        · exact h
      unfold processEntries
      exact ih (by rw [typs_processEntry]; exact hdist)
        (by rw [typs_processEntry]; exact hia)
        (QInv_processEntry hdist hia hQ) hrest

theorem typs_processCand {cs : List Cand} {i : Nat} :
    (processCand cs i).map Cand.typ = cs.map Cand.typ := by
  unfold processCand
  rcases h : cs[i]? with _ | c
  · rfl
  · exact typs_processEntries _

theorem Dead_processCand {cs : List Cand} {i : Nat} {p : String} {t : GType}
    (hd : Dead cs p t) : Dead (processCand cs i) p t := by
  unfold processCand
  rcases h : cs[i]? with _ | c
  · exact hd
  · exact Dead_processEntries _ hd

theorem entryAt_processCand_mono {cs : List Cand} {i : Nat} {k : Nat}
    {q : String} {s : GType}
    (h : entryAt (processCand cs i) k q s = true) : entryAt cs k q s = true := by
  unfold processCand at h
  revert h
  rcases hi : cs[i]? with _ | c
  · exact fun h => h
  · exact fun h => entryAt_processEntries_mono _ h

theorem QInv_processCand {O cs : List Cand} {i : Nat} {p : String} {t : GType}
    (hdist : (cs.map Cand.typ).Pairwise (fun x y => ¬(x = y)))
    (hQ : QInv O cs p t) : QInv O (processCand cs i) p t := by
  unfold processCand
  rcases h : cs[i]? with _ | c
  · exact hQ
  · exact QInv_processEntries _ hdist (typ_getElem?_of_getElem? h) hQ

theorem typs_muAux {cs : List Cand} {i n : Nat} :
    (muAux cs i n).map Cand.typ = cs.map Cand.typ := by
  induction n generalizing cs i with
  | zero => rfl
  | succ n ih =>
    unfold muAux
    rw [ih, typs_processCand]

theorem Dead_muAux {cs : List Cand} {p : String} {t : GType} (i n : Nat)
    (hd : Dead cs p t) : Dead (muAux cs i n) p t := by
  induction n generalizing cs i with
  | zero => exact hd
  | succ n ih =>
    unfold muAux
    apply ih
    exact Dead_processCand hd

theorem entryAt_muAux_mono {cs : List Cand} {k : Nat} {q : String} {s : GType}
    (i n : Nat) (h : entryAt (muAux cs i n) k q s = true) :
    entryAt cs k q s = true := by
  induction n generalizing cs i with
  | zero => exact h
  | succ n ih =>
    unfold muAux at h
    exact entryAt_processCand_mono (ih (i + 1) h)

theorem muAux_kills {O : List Cand} {p : String} {t : GType} {a0 : Nat}
    (hself : entryAt O a0 p t = true)
    (hother : ∃ j, ¬(j = a0) ∧ entryAt O j p t = true) :
    ∀ (n i : Nat) (cs : List Cand),
      (cs.map Cand.typ).Pairwise (fun x y => ¬(x = y)) →
      QInv O cs p t → i ≤ a0 → a0 < i + n →
      Dead (muAux cs i n) p t := by
  intro n
  induction n with
  | zero => intro i cs _ _ hlow hhigh; omega
  | succ n ih =>
    intro i cs hdist hQ hlow hhigh
    unfold muAux
    by_cases hi : i = a0
    · subst hi
      rcases hQ with hL | hD
      · have hcs : entryAt cs i p t = true := by rw [hL i]; exact hself
        rcases entryAt_true_iff.mp hcs with ⟨c, hc, hmemc⟩
        have hstep : processCand cs i = processEntries cs i c.typ c.paths := by
          unfold processCand
          rw [hc]
        have hdead : Dead (processEntries cs i c.typ c.paths) p t :=
          processEntries_kills c.paths hdist (typ_getElem?_of_getElem? hc)
            (Or.inl hL) hmemc hother
        rw [hstep]
        exact Dead_muAux _ _ hdead
      · exact Dead_muAux _ _ (Dead_processCand hD)
    · exact ih (i + 1) (processCand cs i)
        (by rw [typs_processCand]; exact hdist)
        (QInv_processCand hdist hQ) (by omega) (by omega)

theorem length_makeUniquePaths {cs : List Cand} :
    (makeUniquePaths cs).length = cs.length := by
  have h := @typs_muAux cs 0 cs.length
  have h1 : ((muAux cs 0 cs.length).map Cand.typ).length = ((cs.map Cand.typ)).length := by
    rw [h]
  rw [List.length_map, List.length_map] at h1
  exact h1

theorem entryAt_makeUniquePaths_mono {cs : List Cand} {k : Nat} {q : String}
    {s : GType} (h : entryAt (makeUniquePaths cs) k q s = true) :
    entryAt cs k q s = true :=
  entryAt_muAux_mono _ _ h

theorem makeUniquePaths_dead {cs : List Cand} {a b : Nat} {p : String} {t : GType}
    (hdist : (cs.map Cand.typ).Pairwise (fun x y => ¬(x = y)))
    (hab : ¬(a = b))
    (ha : entryAt cs a p t = true) (hb : entryAt cs b p t = true) :
    Dead (makeUniquePaths cs) p t := by
  unfold makeUniquePaths
  exact muAux_kills ha ⟨b, fun h => hab h.symm, hb⟩ cs.length 0 cs hdist
    (Or.inl fun k => rfl) (Nat.zero_le a) (by simpa using entryAt_lt ha)

/--
C2: the fingerprint builder removes an identical `(path, kind)` entry
from the maps of all candidates that share it — for every ordered pair of
distinct candidates holding an identical entry, the entry is absent from
both resulting maps — and, in particular, two candidates with equal
path-kind maps both end with empty fingerprints, after which every
document resolves to no match.
-/
theorem makeUniquePaths_removes_shared :
    (∀ (cs : List Cand) (a b : Nat) (p : String) (t : GType),
      (cs.map Cand.typ).Pairwise (fun x y => ¬(x = y)) →
      ¬(a = b) →
      entryAt cs a p t = true → entryAt cs b p t = true →
      entryAt (makeUniquePaths cs) a p t = false ∧
        entryAt (makeUniquePaths cs) b p t = false)
    ∧ (∀ c1 c2 : Cand, ¬(c1.typ = c2.typ) → c1.paths = c2.paths →
        (makeUniquePaths [c1, c2]).map Cand.paths = [[], []] ∧
        ∀ doc : String → GType,
          (ResolveJSON (makeUniquePaths [c1, c2]) doc).1 = none) := by
  constructor
  · intro cs a b p t hdist hab ha hb
    have hd := makeUniquePaths_dead hdist hab ha hb
    exact ⟨hd a, hd b⟩
  · intro c1 c2 htyp hpaths
    have hdist : (([c1, c2]).map Cand.typ).Pairwise (fun x y => ¬(x = y)) := by
      constructor
      · intro y hy
        have : y = c2.typ := by simpa using hy
        subst this
        exact htyp
      · constructor
        · intro y hy
          exact absurd hy (List.not_mem_nil y)
        · exact List.Pairwise.nil
    have hdead : ∀ p t, (p, t) ∈ c1.paths → Dead (makeUniquePaths [c1, c2]) p t := by
      intro p t hmem
      have ha : entryAt [c1, c2] 0 p t = true := by
        unfold entryAt
        simpa using hmem
      have hb : entryAt [c1, c2] 1 p t = true := by
        unfold entryAt
        simp only [List.getElem?_cons_succ, List.getElem?_cons_zero]
        rw [← hpaths]
        simpa using hmem
      exact makeUniquePaths_dead hdist (by omega) ha hb
    have hlen : (makeUniquePaths [c1, c2]).length = 2 := by
      rw [length_makeUniquePaths]
      rfl
    rcases List.length_eq_two.mp hlen with ⟨d1, d2, hr⟩
    have hd1 : d1.paths = [] := by
      rcases hd : d1.paths with _ | ⟨⟨p, t⟩, rest⟩
      · rfl
      · exfalso
        have hAt : entryAt (makeUniquePaths [c1, c2]) 0 p t = true := by
          unfold entryAt
          rw [hr]
          simp [hd]
        have hOrig := entryAt_makeUniquePaths_mono hAt
        have hmem : (p, t) ∈ c1.paths := by
          unfold entryAt at hOrig
          simpa using hOrig
        have := hdead p t hmem 0
        rw [hAt] at this
        exact Bool.true_eq_false ▸ this
    have hd2 : d2.paths = [] := by
      rcases hd : d2.paths with _ | ⟨⟨p, t⟩, rest⟩
      · rfl
      · exfalso
        have hAt : entryAt (makeUniquePaths [c1, c2]) 1 p t = true := by
          unfold entryAt
          rw [hr]
          simp [hd]
        have hOrig := entryAt_makeUniquePaths_mono hAt
        have hmem : (p, t) ∈ c1.paths := by
          unfold entryAt at hOrig
          simp only [List.getElem?_cons_succ, List.getElem?_cons_zero] at hOrig
          rw [hpaths]
          simpa using hOrig
        have := hdead p t hmem 1
        rw [hAt] at this
        exact Bool.true_eq_false ▸ this
    constructor
    · rw [hr]
      simp [hd1, hd2]
    · intro doc
      rw [hr]
      simp [ResolveJSON, resolveCand, hd1, hd2]

theorem entryMatched_false_of {cs : List Cand} {a p : String} {t : GType}
    (hnone : ∀ b ∈ cs, ¬(b.typ = a) → ¬((p, t) ∈ b.paths)) :
    entryMatched cs a p t = false := by
  cases hm : entryMatched cs a p t
  · rfl
  · rcases entryMatched_true_iff.mp hm with ⟨b, hb, hbt, hbm⟩
    exact absurd hbm (hnone b hb hbt)

theorem processEntry_id {cs : List Cand} {i : Nat} {a p : String} {t : GType}
    (hnone : ∀ b ∈ cs, ¬(b.typ = a) → ¬((p, t) ∈ b.paths)) :
    processEntry cs i a p t = cs := by
  have hprune : pruneOthers cs a p t = cs := by
    unfold pruneOthers
    have hcongr : ∀ b ∈ cs,
        (if b.typ = a then b else (⟨b.typ, removeEntry p t b.paths⟩ : Cand)) = id b := by
      intro b hb
      by_cases hbt : b.typ = a
      · rw [if_pos hbt]; rfl
      · rw [if_neg hbt]
        show (⟨b.typ, removeEntry p t b.paths⟩ : Cand) = b
        rw [removeEntry_eq_self (hnone b hb hbt)]
    rw [List.map_congr_left hcongr, List.map_id]
  unfold processEntry
  rw [if_neg (by rw [entryMatched_false_of hnone]; exact Bool.false_ne_true)]
  exact hprune

theorem processEntries_id {cs : List Cand} {i : Nat} {a : String}
    (L : List (String × GType))
    (hL : ∀ q s, (q, s) ∈ L → ∀ b ∈ cs, ¬(b.typ = a) → ¬((q, s) ∈ b.paths)) :
    processEntries cs i a L = cs := by
  induction L with
  | nil => rfl
  | cons e rest ih =>
    rcases e with ⟨q, s⟩
    unfold processEntries
    rw [processEntry_id (hL q s (List.mem_cons_self ..))]
    exact ih (fun q2 s2 hm => hL q2 s2 (List.mem_cons_of_mem _ hm))

theorem disjoint_index {cs : List Cand}
    (hdisj : cs.Pairwise (fun c1 c2 => ∀ e, e ∈ c1.paths → ¬(e ∈ c2.paths)))
    {j k : Nat} (hjk : ¬(j = k)) {cj ck : Cand}
    (hj : cs[j]? = some cj) (hk : cs[k]? = some ck)
    {e : String × GType} (he : e ∈ cj.paths) : ¬(e ∈ ck.paths) := by
  rcases List.getElem?_eq_some_iff.mp hj with ⟨hltj, hej⟩
  rcases List.getElem?_eq_some_iff.mp hk with ⟨hltk, hek⟩
  rcases Nat.lt_or_ge j k with h | h
  · have hr := List.pairwise_iff_getElem.mp hdisj j k hltj hltk h
    rw [hej, hek] at hr
    exact hr e he
  · have hkj : k < j := Nat.lt_of_le_of_ne h (fun hh => hjk hh.symm)
    have hr := List.pairwise_iff_getElem.mp hdisj k j hltk hltj hkj
    rw [hej, hek] at hr
    intro hck
    exact hr e hck he

theorem processCand_id {cs : List Cand} {i : Nat}
    (hdisj : cs.Pairwise (fun c1 c2 => ∀ e, e ∈ c1.paths → ¬(e ∈ c2.paths))) :
    processCand cs i = cs := by
  unfold processCand
  rcases hc : cs[i]? with _ | c
  · rfl
  · apply processEntries_id
    intro q s hmem b hb hbt
    rcases List.mem_iff_getElem?.mp hb with ⟨k, hk⟩
    have hki : ¬(i = k) := by
      intro hki
      subst hki
      rw [hc] at hk
      injection hk with hbc
      exact hbt (by rw [← hbc])
    exact disjoint_index hdisj hki hc hk hmem

theorem muAux_id {cs : List Cand}
    (hdisj : cs.Pairwise (fun c1 c2 => ∀ e, e ∈ c1.paths → ¬(e ∈ c2.paths))) :
    ∀ (n i : Nat), muAux cs i n = cs := by
  intro n
  induction n with
  | zero => intro i; rfl
  | succ n ih =>
    intro i
    unfold muAux
    rw [processCand_id hdisj]
    exact ih (i + 1)

/--
C7: on a set of candidates whose path-kind maps are pairwise disjoint,
the fingerprint builder is the identity — every candidate keeps its full
original path-kind map, with no entry removed.
-/
theorem makeUniquePaths_disjoint_identity (cs : List Cand)
    (hdisj : cs.Pairwise (fun c1 c2 => ∀ e, e ∈ c1.paths → ¬(e ∈ c2.paths))) :
    makeUniquePaths cs = cs :=
  muAux_id hdisj cs.length 0

/-- Witness for the C7 theorem at a concrete two-candidate set with
disjoint maps. -/
theorem makeUniquePaths_disjoint_identity_witness :
    makeUniquePaths [⟨"s1", [("foo", .TString)]⟩, ⟨"s2", [("bar", .TNumber)]⟩]
      = [⟨"s1", [("foo", .TString)]⟩, ⟨"s2", [("bar", .TNumber)]⟩] :=
  makeUniquePaths_disjoint_identity _ (by decide)

/-- Witness for the C2 theorem: two candidates with the identical single
entry both lose it. -/
theorem makeUniquePaths_removes_shared_witness :
    entryAt (makeUniquePaths [⟨"s1", [("x", .TString)]⟩, ⟨"s2", [("x", .TString)]⟩])
        0 "x" .TString = false
    ∧ entryAt (makeUniquePaths [⟨"s1", [("x", .TString)]⟩, ⟨"s2", [("x", .TString)]⟩])
        1 "x" .TString = false :=
  makeUniquePaths_removes_shared.1 [⟨"s1", [("x", .TString)]⟩, ⟨"s2", [("x", .TString)]⟩]
    0 1 "x" .TString (by decide) (by decide) (by decide) (by decide)

/-- Witness for the C6 theorem: an engine whose sole fingerprint entry
finds no matching lookup surfaces `ErrNoMatch`. -/
theorem resolver_existential_first_match_witness :
    UnmarshalJSON ⟨[⟨"s1", [("foo", .TString)]⟩]⟩
      ⟨"\x7b\x7d", fun _ => .TNull, fun _ => true⟩ = .error .noMatch :=
  resolver_existential_first_match.2.2.2 ⟨[⟨"s1", [("foo", .TString)]⟩]⟩
    ⟨"\x7b\x7d", fun _ => .TNull, fun _ => true⟩ rfl rfl

/-!
### Boolean fingerprint entries (C1)

The source comments that a boolean field should accept either literal
(`gjson.True` or `gjson.False`), but the two consecutive map assignments
leave only the second: the entry holds `gjson.False` alone, so a literal
`true` at the path does not satisfy it.
-/

/--
C1 (code behaviour at the failing input): for a candidate with a boolean
field, the built fingerprint records only the literal-false tag — the
assignment of `gjson.True` is overwritten by the assignment of
`gjson.False` — so a document carrying literal `true` at the path
resolves to no match, while a document carrying literal `false` resolves
to the candidate.
-/
theorem bool_fingerprint_false_only :
    buildPathsForRoot (.goStruct "b1" [("Flag", "", true, .goBool)])
      = .ok [("flag", .TFalse)]
    ∧ New [.goStruct "b1" [("Flag", "", true, .goBool)]]
      = .ok ⟨[⟨"b1", [("flag", .TFalse)]⟩]⟩
    ∧ UnmarshalJSON ⟨[⟨"b1", [("flag", .TFalse)]⟩]⟩
        ⟨"\x7b\"flag\":true\x7d", fun p => if p = "flag" then .TTrue else .TNull,
          fun _ => true⟩ = .error .noMatch
    ∧ UnmarshalJSON ⟨[⟨"b1", [("flag", .TFalse)]⟩]⟩
        ⟨"\x7b\"flag\":false\x7d", fun p => if p = "flag" then .TFalse else .TNull,
          fun _ => true⟩ = .ok "b1" :=
  ⟨rfl, rfl, rfl, rfl⟩

/-!
### Root guard (C3)

gjson tags a root array with the same composite tag as a root object, so
the `res.Type != gjson.JSON` guard lets arrays through to resolution.
-/

/-- Whether a decode outcome is the "invalid json: not an object" guard
error. -/
def isInvalidJson : Except UErr String → Bool
  | .error .invalidJson => true
  | _ => false

/-- C3 counterexample: an input whose root is an array passes the
"not an object" guard and reaches resolution — the outcome is
`ErrNoMatch`, not the invalid-document error. -/
theorem root_array_passes_guard :
    parseRoot "[1, 2, 3]" = .TJSON
    ∧ UnmarshalJSON ⟨[⟨"s1", [("foo", .TString)]⟩]⟩
        ⟨"[1, 2, 3]", fun _ => .TNull, fun _ => true⟩ = .error .noMatch
    ∧ isInvalidJson (UnmarshalJSON ⟨[⟨"s1", [("foo", .TString)]⟩]⟩
        ⟨"[1, 2, 3]", fun _ => .TNull, fun _ => true⟩) = false :=
  ⟨rfl, rfl, rfl⟩

/--
C3 amended: an input whose parse result's root tag is not the composite
`gjson.JSON` tag — a parse failure, or a root string, number, or literal —
is rejected with the invalid-document error before resolution or decode;
a root array carries the composite tag and is not rejected.
-/
theorem root_guard_rejects_noncomposite (u : Engine) (d : Doc)
    (h : ¬(parseRoot d.raw = .TJSON)) :
    UnmarshalJSON u d = .error .invalidJson := by
  unfold UnmarshalJSON
  rw [if_pos h]

/-- Witness for the amended C3 theorem at a number-rooted input. -/
theorem root_guard_rejects_noncomposite_witness :
    UnmarshalJSON ⟨[⟨"s1", [("foo", .TString)]⟩]⟩
      ⟨"  12", fun _ => .TNull, fun _ => true⟩ = .error .invalidJson :=
  root_guard_rejects_noncomposite ⟨[⟨"s1", [("foo", .TString)]⟩]⟩
    ⟨"  12", fun _ => .TNull, fun _ => true⟩ (by decide)

/-!
### Ignore tags and accessibility (C5)

`buildPathsForField` skips nested fields whose json name is the ignore
tag, but `buildPathsForRoot` has no such check: a top-level `json:"-"`
field is walked, its name normalizing to the empty segment.
-/

/--
C5 (code behaviour at the failing input): a top-level field tagged
`json:"-"` is NOT skipped — it contributes an entry at the
empty-normalized path and is recursed into — while a nested ignored field
is skipped, and unexported fields are skipped at every level.
-/
theorem root_ignore_tag_not_skipped :
    buildPathsForRoot (.goStruct "S" [("Secret", "-", true, .goInt)])
      = .ok [("", .TNumber)]
    ∧ buildPathsForRoot (.goStruct "H"
        [("Hidden", "-", true, .goStruct "In2" [("X", "", true, .goInt)])])
      = .ok [("x", .TNumber)]
    ∧ buildPathsForRoot (.goStruct "O"
        [("A", "", true, .goStruct "In"
          [("Secret", "-", true, .goInt), ("Y", "", true, .goString)])])
      = .ok [("a.y", .TString)]
    ∧ buildPathsForRoot (.goStruct "U"
        [("hidden", "", false, .goInt), ("Y", "", true, .goString)])
      = .ok [("y", .TString)] :=
  ⟨rfl, rfl, rfl, rfl⟩

/-!
### Pointer fields (C9)

For a pointer-typed field, `getJSONType` yields `gjson.JSON` and the kind
check rules out collections, so the walker reaches
`reflect.VisibleFields(t)` with the pointer type itself — which panics in
the Go reflect package (`reflect.VisibleFields of non-struct type`); the
pointer is never dereferenced.
-/

/--
C9 (code behaviour at the failing input): the shape walk is NOT total on
pointer-typed accessible fields — a field whose type is a pointer to a
nested record makes the walk fault in `reflect.VisibleFields` instead of
recursing into the target — while collection-typed fields do stop
recursion with the opaque `gjson.JSON` kind as described.
-/
theorem pointer_field_panics :
    buildPathsForRoot (.goStruct "P"
        [("F", "", true, .goPtr (.goStruct "Inner" [("X", "", true, .goInt)]))])
      = .error (.goPanic "reflect.VisibleFields of non-struct type")
    ∧ New [.goStruct "P"
        [("F", "", true, .goPtr (.goStruct "Inner" [("X", "", true, .goInt)]))]]
      = .error (.goPanic "reflect.VisibleFields of non-struct type")
    ∧ buildPathsForRoot (.goStruct "S" [("Xs", "", true, .goSlice .goString)])
      = .ok [("xs", .TJSON)]
    ∧ buildPathsForRoot (.goStruct "M" [("Ms", "", true, .goMap .goInt)])
      = .ok [("ms", .TJSON)]
    ∧ buildPathsForRoot (.goStruct "A" [("As", "", true, .goArray .goBool)])
      = .ok [("as", .TJSON)] :=
  ⟨rfl, rfl, rfl, rfl, rfl⟩

/-!
### Unsupported kinds (C4)
-/

/-- The reflect kinds the source rejects with `ErrUnsupportedType`:
function, channel, raw memory address (`unsafe.Pointer`), interface (the
placeholder `any` included), and the invalid kind. -/
def unsupportedKind : GoType → Bool
  | .goChan => true
  | .goFunc => true
  | .goInterface => true
  | .goUnsafePointer => true
  | .goInvalid => true
  | _ => false

theorem getJSONType_unsupported (t : GoType) (h : unsupportedKind t = true) :
    getJSONType t = .error (.unsupportedType (goTypeName t)) := by
  cases t <;> first
    | rfl
    | simp [unsupportedKind] at h

theorem buildPathsForField_unsupported {ps : JPaths} {curr : String}
    {ty : GoType} (hk : unsupportedKind ty = true) :
    buildPathsForField ps curr ty = .error (.unsupportedType (goTypeName ty)) := by
  cases ty <;> first
    | rfl
    | simp [unsupportedKind] at hk

theorem buildRootFields_err {fs : List (String × String × Bool × GoType)}
    {f : String × String × Bool × GoType} (paths : JPaths)
    (hf : f ∈ fs) (hexp : f.2.2.1 = true) (hk : unsupportedKind f.2.2.2 = true) :
    ∃ e, buildRootFields paths fs = .error e := by
  induction fs generalizing paths with
  | nil => exact absurd hf (List.not_mem_nil _)
  | cons g rest ih =>
    rcases g with ⟨gname, gtag, gexp, gty⟩
    rcases List.mem_cons.mp hf with heq | hmem
    · subst heq
      have hexp2 : gexp = true := hexp
      have hk2 : unsupportedKind gty = true := hk
      unfold buildRootFields
      rw [if_neg (by rw [hexp2]; simp)]
      exact ⟨.unsupportedType (goTypeName gty),
        by rw [buildPathsForField_unsupported hk2]⟩
    · unfold buildRootFields
      by_cases hg : gexp = false
      · rw [if_pos hg]
        exact ih paths hmem
      · rw [if_neg hg]
        rcases hb : buildPathsForField paths
            (appendToPath "" (getJSONName gname gtag)) gty with e | ps
        · exact ⟨e, rfl⟩
        · rcases ih ps hmem with ⟨e, he⟩
          exact ⟨e, he⟩

theorem buildAll_err {cands : List GoType} {t : GoType} (ht : t ∈ cands)
    (herr : ∃ e, buildPathsForRoot t = .error e) :
    ∃ e, buildAll cands = .error e := by
  induction cands with
  | nil => exact absurd ht (List.not_mem_nil _)
  | cons c rest ih =>
    unfold buildAll
    rcases hb : buildPathsForRoot c with e | ps
    · exact ⟨e, rfl⟩
    · rcases List.mem_cons.mp ht with heq | hmem
      · subst heq
        rcases herr with ⟨e, he⟩
        rw [he] at hb
        exact absurd hb (by simp)
      · rcases ih hmem with ⟨e, he⟩
        refine ⟨e, ?_⟩
        show (match buildAll rest with
          | .error e => (.error e : Except TErr (List Cand))
          | .ok cs => .ok (⟨goTypeName c, ps⟩ :: cs)) = .error e
        rw [he]

theorem New_err {cands : List GoType} {t : GoType} (ht : t ∈ cands)
    (herr : ∃ e, buildPathsForRoot t = .error e) :
    ∃ e, New cands = .error e := by
  rcases buildAll_err ht herr with ⟨e, he⟩
  refine ⟨e, ?_⟩
  unfold New newTraverseResolver
  rw [if_neg (fun h0 => List.ne_nil_of_mem ht (List.length_eq_zero.mp h0)), he]

theorem buildRootFields_first_unsupported
    {pre : List (String × String × Bool × GoType)}
    {f : String × String × Bool × GoType}
    {post : List (String × String × Bool × GoType)} (paths : JPaths)
    (hpre : ∀ g ∈ pre, g.2.2.1 = false) (hexp : f.2.2.1 = true)
    (hk : unsupportedKind f.2.2.2 = true) :
    buildRootFields paths (pre ++ f :: post)
      = .error (.unsupportedType (goTypeName f.2.2.2)) := by
  induction pre generalizing paths with
  | nil =>
    rcases f with ⟨fn, ftg, fe, fty⟩
    have hexp2 : fe = true := hexp
    have hk2 : unsupportedKind fty = true := hk
    show buildRootFields paths ((fn, ftg, fe, fty) :: post) = _
    unfold buildRootFields
    rw [if_neg (by rw [hexp2]; simp), buildPathsForField_unsupported hk2]
  | cons g pre2 ih =>
    rcases g with ⟨gn, gtg, ge, gty⟩
    have hg : ge = false := hpre (gn, gtg, ge, gty) (List.mem_cons_self ..)
    show buildRootFields paths ((gn, gtg, ge, gty) :: (pre2 ++ f :: post)) = _
    unfold buildRootFields
    rw [if_pos hg]
    exact ih paths (fun g2 hg2 => hpre g2 (List.mem_cons_of_mem _ hg2))

/--
C4: a candidate record with an accessible (exported) field of an
unsupported kind — function, channel, raw memory address, interface/any,
or the invalid kind — makes engine construction fail: `getJSONType`
reports `ErrUnsupportedType` naming the offending type, `New` returns an
error for any candidate list containing such a record (the `Except.error`
result carries no engine value), and when the offending field is the
record's first exported field the construction error is exactly the
`UnsupportedType` error naming that field's type.
-/
theorem unsupported_kind_fails_construction :
    (∀ t : GoType, unsupportedKind t = true →
      getJSONType t = .error (.unsupportedType (goTypeName t)))
    ∧ (∀ (cands : List GoType) (name : String)
        (fs : List (String × String × Bool × GoType))
        (f : String × String × Bool × GoType),
        (.goStruct name fs) ∈ cands → f ∈ fs → f.2.2.1 = true →
        unsupportedKind f.2.2.2 = true →
        ∃ e, New cands = .error e)
    ∧ (∀ (name : String) (pre : List (String × String × Bool × GoType))
        (f : String × String × Bool × GoType)
        (post : List (String × String × Bool × GoType)),
        (∀ g ∈ pre, g.2.2.1 = false) → f.2.2.1 = true →
        unsupportedKind f.2.2.2 = true →
        New [.goStruct name (pre ++ f :: post)]
          = .error (.unsupportedType (goTypeName f.2.2.2))) := by
  refine ⟨getJSONType_unsupported, ?_, ?_⟩
  · intro cands name fs f hc hf hexp hk
    rcases buildRootFields_err ([] : JPaths) hf hexp hk with ⟨e, he⟩
    exact New_err hc ⟨e, he⟩
  · intro name pre f post hpre hexp hk
    unfold New
    rw [if_neg (by simp)]
    unfold newTraverseResolver buildAll
    have hb : buildPathsForRoot (.goStruct name (pre ++ f :: post))
        = .error (.unsupportedType (goTypeName f.2.2.2)) := by
      show buildRootFields [] (pre ++ f :: post) = _
      exact buildRootFields_first_unsupported [] hpre hexp hk
    rw [hb]

/-- Witness for the C4 theorem: a function-typed exported field aborts
construction with the `UnsupportedType` error naming `func`. -/
theorem unsupported_kind_fails_construction_witness :
    New [.goStruct "S" [("F", "", true, .goFunc)]]
      = .error (.unsupportedType "func") :=
  unsupported_kind_fails_construction.2.2 "S" [] ("F", "", true, .goFunc) []
    (fun g hg => absurd hg (List.not_mem_nil g)) rfl rfl

end Turnip

